import Mathlib

/-!
Verification of the nodemonitor core (package nodes) against its
natural-language specification.  The Go sources are shallowly embedded:
pure search logic becomes Lean functions over hash views, the stateful
RemoteNode cache becomes explicit state passing over a height-indexed
history, and remote endpoints become oracle functions.  Machine integers
(uint64 heights) are Nat with explicit wrap-around where the Go code can
underflow or overflow.
-/

/-- Block hashes are modelled as opaque naturals; the Go zero value
common.Hash\x7b\x7d is modelled by `zeroHash`. -/
abbrev Hash := Nat

/-- Model of the Go zero hash common.Hash\x7b\x7d. -/
def zeroHash : Hash := 0

/-- Largest uint64 value; Go heights are uint64. -/
def U64MAX : Nat := 2 ^ 64 - 1

/-- uint64 decrement with wrap-around, modelling Go's n - 1 on uint64. -/
def sub1 (n : Nat) : Nat := if n = 0 then U64MAX else n - 1

/-- uint64 increment with wrap-around, modelling Go's n + 1 on uint64. -/
def add1 (n : Nat) : Nat := if n = U64MAX then 0 else n + 1

/-! ## findSplit (nodes/monitor.go)

For the fork-search logic the two nodes are abstracted by their hash
views: `HashAt(h, false)` as a pure function of the height.  This is the
level at which the specification states the ForkFinder contract. -/

/-- One iteration bound of Go's sort.Search loop:
i, j := 0, n; for i < j \x7b h := (i+j)/2; if !f(h) \x7b i = h+1 \x7d else \x7b j = h \x7d \x7d; return i.
The fuel argument only bounds the iteration count; n steps always suffice. -/
def searchLoop : Nat → Nat → Nat → (Nat → Bool) → Nat
  | 0, i, _, _ => i
  | fuel + 1, i, j, f =>
    if i < j then
      let h := (i + j) / 2
      if f h then searchLoop fuel i h f else searchLoop fuel (h + 1) j f
    else i

/-- Go sort.Search(n, f): smallest index i in [0, n) with f(i) true under a
monotone predicate, n when no such index exists. -/
def sortSearch (n : Nat) (f : Nat → Bool) : Nat := searchLoop n 0 n f

/-- The condition checked for a cached height inside findSplit's replay loop:
the nodes differ at head, and head is genesis or the nodes agree at head-1. -/
def splitCond (ha hb : Nat → Hash) (head : Nat) : Bool :=
  ha head != hb head && (head == 0 || ha (head - 1) == hb (head - 1))

/-- The replay loop of findSplit: for i := len(forkHeightCache)-1; i > 0; i--,
return forkHeightCache[i] as soon as `splitCond` holds there.  Index 0 is
never examined (the loop condition is i > 0). -/
def cacheReplay (cache : List Nat) (ha hb : Nat → Hash) : Nat → Option Nat
  | 0 => none
  | i + 1 =>
    if splitCond ha hb (cache.getD (i + 1) 0) then some (cache.getD (i + 1) 0)
    else cacheReplay cache ha hb i

/-- findSplit(forkHeightCache, num, a, b) from nodes/monitor.go: replay the
cached fork heights, then binary-search the remaining space above
left = forkHeightCache[0] (0 for an empty cache).  Go's
sort.Search(num-left, ...) with num < left runs zero iterations and returns
0, matching Nat truncated subtraction. -/
def findSplit (cache : List Nat) (num : Nat) (ha hb : Nat → Hash) : Nat :=
  match cacheReplay cache ha hb (cache.length - 1) with
  | some head => head
  | none =>
    let left := cache.headD 0
    sortSearch (num - left) (fun i => ha (left + i) != hb (left + i)) + left

/-- Bool test that two hash views differ at a height. -/
def differs (ha hb : Nat → Hash) (i : Nat) : Bool := ha i != hb i

/-! ### sort.Search bracket invariants -/

theorem searchLoop_spec (f : Nat → Bool) (n : Nat)
    (hmono : ∀ l, l ≤ n → ∀ k, k ≤ l → f k = true → f l = true) :
    ∀ fuel i j, j - i ≤ fuel → i ≤ j → j ≤ n →
      (∀ k, k < i → f k = false) → (j = n ∨ f j = true) →
      i ≤ searchLoop fuel i j f ∧ searchLoop fuel i j f ≤ j ∧
      (∀ k, k < searchLoop fuel i j f → f k = false) ∧
      (searchLoop fuel i j f = n ∨ f (searchLoop fuel i j f) = true) := by
  intro fuel
  induction fuel with
  | zero =>
    intro i j hfuel hij hjn hlow hhigh
    have hji : i = j := by omega
    subst hji
    simp only [searchLoop]
    exact ⟨le_refl _, le_refl _, hlow, hhigh⟩
  | succ fuel ih =>
    intro i j hfuel hij hjn hlow hhigh
    simp only [searchLoop]
    by_cases hlt : i < j
    · simp only [if_pos hlt]
      by_cases hf : f ((i + j) / 2) = true
      · simp only [if_pos hf]
        have h1 : (i + j) / 2 - i ≤ fuel := by omega
        have h2 : i ≤ (i + j) / 2 := by omega
        have h3 : (i + j) / 2 ≤ n := by omega
        obtain ⟨a, b, c, d⟩ := ih i ((i + j) / 2) h1 h2 h3 hlow (Or.inr hf)
        exact ⟨a, by omega, c, d⟩
      · simp only [if_neg hf]
        have h1 : j - ((i + j) / 2 + 1) ≤ fuel := by omega
        have h2 : (i + j) / 2 + 1 ≤ j := by omega
        have hlow' : ∀ k, k < (i + j) / 2 + 1 → f k = false := by
          intro k hk
          by_cases hki : k < i
          · exact hlow k hki
          · by_contra hkt
            have hkt' : f k = true := by
              cases hfk : f k
              · exact absurd hfk hkt
              · rfl
            have : f ((i + j) / 2) = true := by
              refine hmono ((i + j) / 2) (by omega) k (by omega) hkt'
            exact hf this
        obtain ⟨a, b, c, d⟩ := ih ((i + j) / 2 + 1) j h1 h2 hjn hlow' hhigh
        exact ⟨by omega, b, c, d⟩
    · simp only [if_neg hlt]
      have hji : i = j := by omega
      subst hji
      exact ⟨le_refl _, le_refl _, hlow, hhigh⟩

theorem sortSearch_spec (f : Nat → Bool) (n : Nat)
    (hmono : ∀ l, l ≤ n → ∀ k, k ≤ l → f k = true → f l = true) :
    sortSearch n f ≤ n ∧ (∀ k, k < sortSearch n f → f k = false) ∧
    (sortSearch n f = n ∨ f (sortSearch n f) = true) := by
  have h := searchLoop_spec f n hmono n 0 n (by omega) (Nat.zero_le n) (le_refl n)
    (by intro k hk; omega) (Or.inl rfl)
  exact ⟨h.2.1, h.2.2.1, h.2.2.2⟩

/-- With an empty cache the replay loop does nothing and the binary search
covers [0, num). -/
theorem findSplit_nil (num : Nat) (ha hb : Nat → Hash) :
    findSplit [] num ha hb = sortSearch num (fun i => ha i != hb i) := by
  simp [findSplit, cacheReplay, sortSearch]

/-! ### Claim C1 -/

/-- C1 is refuted at a concrete input: with fork-height cache [5] and two
views that differ at every height ≥ 2, the chains disagree at highest = 7
and findSplit returns 5, although the views already differ at height 2
(so 5 is not the smallest differing height) and also differ at 4 = 5 - 1
(so the parent-agreement conclusion fails as well). -/
theorem findSplit_counterexample_cached_left :
    differs (fun n => if 2 ≤ n then 1 else 0) (fun _ => 0) 7 = true ∧
    findSplit [5] 7 (fun n => if 2 ≤ n then 1 else 0) (fun _ => 0) = 5 ∧
    differs (fun n => if 2 ≤ n then 1 else 0) (fun _ => 0) 2 = true ∧
    differs (fun n => if 2 ≤ n then 1 else 0) (fun _ => 0) 4 = true := by
  decide

/-- C1 (amended): when the fork-height cache is empty, divergence is monotone
up to highest (once the views differ at a height they differ at every larger
height ≤ highest) and the views differ at highest, findSplit returns the
smallest height in [0, highest] at which they differ; at that height they
differ, and it is 0 or the views agree at its predecessor.  With a non-empty
cache the returned height need not be smallest (see the counterexample). -/
theorem findSplit_empty_cache_least_divergence (ha hb : Nat → Hash) (num : Nat)
    (hmono : ∀ l, l ≤ num → ∀ k, k ≤ l →
      differs ha hb k = true → differs ha hb l = true)
    (hdiff : differs ha hb num = true) :
    findSplit [] num ha hb ≤ num ∧
    differs ha hb (findSplit [] num ha hb) = true ∧
    (∀ k, k < findSplit [] num ha hb → ha k = hb k) ∧
    (findSplit [] num ha hb = 0 ∨
      ha (findSplit [] num ha hb - 1) = hb (findSplit [] num ha hb - 1)) := by
  have hrw : findSplit [] num ha hb = sortSearch num (differs ha hb) :=
    findSplit_nil num ha hb
  obtain ⟨hle, hlow, hhit⟩ := sortSearch_spec (differs ha hb) num hmono
  rw [hrw]
  refine ⟨hle, ?_, ?_, ?_⟩
  · rcases hhit with h | h
    · rw [h]; exact hdiff
    · exact h
  · intro k hk
    have := hlow k hk
    simpa [differs, bne_eq_false_iff_eq] using this
  · by_cases h0 : sortSearch num (differs ha hb) = 0
    · exact Or.inl h0
    · refine Or.inr ?_
      have hlt : sortSearch num (differs ha hb) - 1 < sortSearch num (differs ha hb) := by
        omega
      have := hlow _ hlt
      simpa [differs, bne_eq_false_iff_eq] using this

/-- Concrete run of the amended C1 statement: views differing exactly from
height 3 on, highest 6, empty cache; findSplit returns 3. -/
theorem findSplit_empty_cache_least_divergence_witness :
    (∀ l, l ≤ 6 → ∀ k, k ≤ l →
      differs (fun n => if 3 ≤ n then 1 else 0) (fun _ => 0) k = true →
      differs (fun n => if 3 ≤ n then 1 else 0) (fun _ => 0) l = true) ∧
    differs (fun n => if 3 ≤ n then 1 else 0) (fun _ => 0) 6 = true ∧
    findSplit [] 6 (fun n => if 3 ≤ n then 1 else 0) (fun _ => 0) = 3 ∧
    differs (fun n => if 3 ≤ n then 1 else 0) (fun _ => 0)
      (findSplit [] 6 (fun n => if 3 ≤ n then 1 else 0) (fun _ => 0)) = true :=
  ⟨by decide, by decide, by decide,
    (findSplit_empty_cache_least_divergence _ _ 6 (by decide) (by decide)).2.1⟩

/-! ### Claim C4 -/

/-- The replay loop started at index i examines exactly the cache entries at
indices i, i-1, ..., 1 in that order, i.e. the reverse of the tail of the
first i+1 entries, and returns the first hit. -/
theorem cacheReplay_eq_find (cache : List Nat) (ha hb : Nat → Hash) :
    ∀ i, i < cache.length →
      cacheReplay cache ha hb i =
        (((cache.take (i + 1)).drop 1).reverse).find? (splitCond ha hb) := by
  intro i
  induction i with
  | zero =>
    intro hi
    cases cache with
    | nil => simp at hi
    | cons c0 rest => simp [cacheReplay]
  | succ i ih =>
    intro hi
    have hi' : i < cache.length := by omega
    have hget : cache[i + 1]? = some (cache.getD (i + 1) 0) := by
      rw [List.getD_eq_getElem?_getD, List.getElem?_eq_getElem hi]
      simp
    have htake : cache.take (i + 2) = cache.take (i + 1) ++ [cache.getD (i + 1) 0] := by
      rw [List.take_succ, hget]
      simp
    have hlen : 1 ≤ (cache.take (i + 1)).length := by
      rw [List.length_take]
      omega
    have hlist : ((cache.take (i + 2)).drop 1).reverse =
        cache.getD (i + 1) 0 :: ((cache.take (i + 1)).drop 1).reverse := by
      rw [htake, List.drop_append_of_le_length hlen, List.reverse_append]
      simp
    rw [hlist]
    have hstep : cacheReplay cache ha hb (i + 1) =
        if splitCond ha hb (cache.getD (i + 1) 0) then some (cache.getD (i + 1) 0)
        else cacheReplay cache ha hb i := rfl
    cases hc : splitCond ha hb (cache.getD (i + 1) 0) with
    | true =>
      rw [hstep, if_pos hc, List.find?_cons_of_pos _ hc]
    | false =>
      have hc2 : splitCond ha hb (cache[i + 1]?.getD 0) = false := by
        rw [← List.getD_eq_getElem?_getD]
        exact hc
      rw [hstep, if_neg (by simp [hc2]), List.find?_cons_of_neg _ (by simp [hc2]),
        ih hi']

/-- C4 (amended): the replay phase of findSplit examines only the cache
entries at indices 1 through len-1 — never index 0, the largest height of the
descending cache — and it walks them from the last index upward, i.e. from
the smallest cached height towards the largest.  The first height H in that
order satisfying (hashes differ at H, and H = 0 or hashes agree at H-1) is
returned before any binary search. -/
theorem findSplit_replay_first_hit (cache : List Nat) (num : Nat)
    (ha hb : Nat → Hash) (H : Nat)
    (hfind : ((cache.drop 1).reverse).find? (splitCond ha hb) = some H) :
    findSplit cache num ha hb = H := by
  cases cache with
  | nil => simp at hfind
  | cons c0 rest =>
    have hlen : (c0 :: rest).length - 1 < (c0 :: rest).length := by
      simp
    have hr := cacheReplay_eq_find (c0 :: rest) ha hb ((c0 :: rest).length - 1) hlen
    have htake : (c0 :: rest).take ((c0 :: rest).length - 1 + 1) = c0 :: rest := by
      have : (c0 :: rest).length - 1 + 1 = (c0 :: rest).length := by simp
      rw [this, List.take_length]
    rw [htake] at hr
    unfold findSplit
    rw [hr, hfind]

/-- Concrete run of the amended C4 statement: cache [9, 4, 2]; the replay
examines 2 then 4; the condition fails at 2 and holds at 4, so findSplit
returns 4. -/
theorem findSplit_replay_first_hit_witness :
    ((([9, 4, 2] : List Nat).drop 1).reverse).find?
      (splitCond (fun n => if n = 4 ∨ n = 9 then 1 else 0) (fun _ => 0)) = some 4 ∧
    findSplit [9, 4, 2] 12 (fun n => if n = 4 ∨ n = 9 then 1 else 0) (fun _ => 0) = 4 :=
  ⟨by decide, findSplit_replay_first_hit _ 12 _ _ 4 (by decide)⟩

/-- C4 is refuted at a concrete input: with the descending cache [10, 4] and
views satisfying the replay condition at both 10 and 4, the claimed
largest-to-smallest order would return 10, but findSplit examines the
smaller cached height first and returns 4. -/
theorem findSplit_replay_order_counterexample :
    splitCond (fun n => if n = 4 ∨ n = 10 then 1 else 0) (fun _ => 0) 10 = true ∧
    splitCond (fun n => if n = 4 ∨ n = 10 then 1 else 0) (fun _ => 0) 4 = true ∧
    findSplit [10, 4] 12 (fun n => if n = 4 ∨ n = 10 then 1 else 0) (fun _ => 0) = 4 := by
  decide

/-! ## RemoteNode (nodes/reporting.go)

The chain cache of one RemoteNode.  chainHistory is a height-indexed
partial map, the remote endpoint is an oracle answering HeaderByNumber
(some n) or "latest" (none) with a transport error, a nil header, or a
header.  The header-store side effect (db.add) writes to an external
key-value store and does not feed back into any claim; it is not part of
the state here. -/

/-- Model of the blockInfo struct: number, hash, parent hash. -/
structure BlockInfo where
  num : Nat
  hash : Hash
  pHash : Hash
deriving DecidableEq, Repr

/-- A header as returned by HeaderByNumber; hash is the derived header
hash h.Hash(). -/
structure Header where
  number : Nat
  hash : Hash
  parentHash : Hash
deriving DecidableEq, Repr

/-- What the remote endpoint answers one HeaderByNumber call with. -/
inductive RemoteAnswer where
  | transportErr
  | nilHeader
  | header (h : Header)
deriving DecidableEq, Repr

/-- The remote endpoint as a fixed oracle: none models the "latest" query. -/
abbrev RemoteSource := Option Nat → RemoteAnswer

/-- The three distinct error signals of throttledGetHeader. -/
inductive FetchErr where
  | transport
  | nilHdr
  | numberMismatch
deriving DecidableEq, Repr

/-- chainHistory: height → cached blockInfo. -/
abbrev ChainHist := Nat → Option BlockInfo

/-- chainHistory[bl.num] = bl. -/
def histInsert (h : ChainHist) (bl : BlockInfo) : ChainHist :=
  fun k => if k = bl.num then some bl else h k

/-- delete(chainHistory, n). -/
def histErase (h : ChainHist) (n : Nat) : ChainHist :=
  fun k => if k = n then none else h k

/-- Result of one throttledGetHeader / fetchHeader call together with the
chainHistory it leaves behind. -/
structure FetchOut where
  res : Except FetchErr BlockInfo
  hist : ChainHist

/-- (*RemoteNode).throttledGetHeader, nodes/reporting.go lines 551-575:
fetch the header, fail on transport error or nil header, insert the
blockInfo into chainHistory at its own number, and only then fail with the
number-mismatch error when a concrete height was requested and the returned
number differs.  The insertion precedes the mismatch check, exactly as in
the source. -/
def throttledGetHeader (remote : RemoteSource) (num : Option Nat)
    (hist : ChainHist) : FetchOut :=
  match remote num with
  | .transportErr => ⟨.error .transport, hist⟩
  | .nilHeader => ⟨.error .nilHdr, hist⟩
  | .header h =>
    let bl : BlockInfo := ⟨h.number, h.hash, h.parentHash⟩
    let hist1 := histInsert hist bl
    match num with
    | some n =>
      if n = bl.num then ⟨.ok bl, hist1⟩ else ⟨.error .numberMismatch, hist1⟩
    | none => ⟨.ok bl, hist1⟩

/-- The parent-chain reconciliation loop of (*RemoteNode).fetchHeader:
while the entry below the current block exists and its hash differs from
the current block's parent hash, delete it, refetch it, and continue below
the refetched block; stop on a fetch error.  The fuel bounds the iteration
count; fetchHeader passes enough fuel for every run that does not wrap
around height 0 (where the Go loop can run forever against an adversarial
remote). -/
def reconcile (remote : RemoteSource) : Nat → BlockInfo → ChainHist → ChainHist
  | 0, _, hist => hist
  | fuel + 1, current, hist =>
    match hist (sub1 current.num) with
    | none => hist
    | some parentInfo =>
      if parentInfo.hash = current.pHash then hist
      else
        let o := throttledGetHeader remote (some parentInfo.num)
          (histErase hist parentInfo.num)
        match o.res with
        | .error _ => o.hist
        | .ok current2 => reconcile remote fuel current2 o.hist

/-- (*RemoteNode).fetchHeader, nodes/reporting.go lines 577-604: fetch,
then run parent-chain reconciliation from the fetched block. -/
def fetchHeader (remote : RemoteSource) (num : Option Nat)
    (hist : ChainHist) : FetchOut :=
  let o := throttledGetHeader remote num hist
  match o.res with
  | .error e => ⟨.error e, o.hist⟩
  | .ok hdr => ⟨.ok hdr, reconcile remote (hdr.num + 2) hdr o.hist⟩

/-- The cached per-node values read by BlockAt/HashAt. -/
structure NodeState where
  latest : Option BlockInfo
  hist : ChainHist

/-- node.latest != nil && node.latest.num < num. -/
def isFuture (latest : Option BlockInfo) (num : Nat) : Bool :=
  match latest with
  | some l => decide (l.num < num)
  | none => false

/-- The cache read in BlockAt: skipped entirely when force is set. -/
def cacheLookup (force : Bool) (hist : ChainHist) (num : Nat) : Option BlockInfo :=
  if force then none else hist num

/-- Result of BlockAt together with the chainHistory it leaves behind and
whether the remote was queried. -/
structure BlockAtOut where
  res : Option BlockInfo
  hist : ChainHist
  queried : Bool

/-- (*RemoteNode).BlockAt, nodes/reporting.go lines 606-620. -/
def blockAt (remote : RemoteSource) (st : NodeState) (num : Nat)
    (force : Bool) : BlockAtOut :=
  if isFuture st.latest num then ⟨none, st.hist, false⟩
  else
    match cacheLookup force st.hist num with
    | some bl => ⟨some bl, st.hist, false⟩
    | none =>
      let o := fetchHeader remote (some num) st.hist
      match o.res with
      | .ok bl => ⟨some bl, o.hist, true⟩
      | .error _ => ⟨none, o.hist, true⟩

/-- Result of HashAt together with the chainHistory it leaves behind and
whether the remote was queried. -/
structure HashAtOut where
  val : Hash
  hist : ChainHist
  queried : Bool

/-- The fallthrough of HashAt: fetch the header and return its hash, or the
zero hash when the fetch fails. -/
def hashAtFetch (remote : RemoteSource) (st : NodeState) (num : Nat) : HashAtOut :=
  let o := fetchHeader remote (some num) st.hist
  match o.res with
  | .ok bl => ⟨bl.hash, o.hist, true⟩
  | .error _ => ⟨zeroHash, o.hist, true⟩

/-- (*RemoteNode).HashAt, nodes/reporting.go lines 622-643: without force,
future heights yield the zero hash, a cache hit at num yields its hash, a
cache hit at num+1 yields its parent hash, and otherwise the header is
fetched. -/
def hashAt (remote : RemoteSource) (st : NodeState) (num : Nat)
    (force : Bool) : HashAtOut :=
  if force then hashAtFetch remote st num
  else if isFuture st.latest num then ⟨zeroHash, st.hist, false⟩
  else
    match st.hist num with
    | some bl => ⟨bl.hash, st.hist, false⟩
    | none =>
      match st.hist (add1 num) with
      | some child => ⟨child.pHash, st.hist, false⟩
      | none => hashAtFetch remote st num

/-- Bool view of "the call failed with the number-mismatch error". -/
def isMismatch : Except FetchErr BlockInfo → Bool
  | .error .numberMismatch => true
  | _ => false

/-! ### Claim C2 -/

/-- C2: the code contradicts the claim.  When the remote answers the request
for height 10 with a header numbered 5, throttledGetHeader does return the
number-mismatch error, but it has already inserted the mismatched header
into chainHistory (at the header's own number 5) before the check: the
cache does not stay unchanged.  Evaluated on an initially empty history. -/
theorem throttledGetHeader_mismatch_caches_header :
    isMismatch (throttledGetHeader
      (fun _ => RemoteAnswer.header ⟨5, 77, 70⟩) (some 10) (fun _ => none)).res
      = true ∧
    (throttledGetHeader (fun _ => RemoteAnswer.header ⟨5, 77, 70⟩) (some 10)
      (fun _ => none)).hist 5 = some ⟨5, 77, 70⟩ ∧
    (fun _ => (none : Option BlockInfo)) 5 ≠ some ⟨5, 77, 70⟩ := by
  refine ⟨rfl, rfl, ?_⟩
  intro h
  exact Option.noConfusion h

/-! ### Claim C8 -/

/-- C8: HashAt(n, false) returns the zero hash without querying when latest
is known and n is beyond it; returns the cached hash without querying on a
cache hit at n; otherwise returns the cached child's parent hash without
querying on a cache hit at n+1; and otherwise fetches the header, returning
its hash on success and the zero hash on failure. -/
theorem hashAt_cache_semantics (remote : RemoteSource) (st : NodeState) (num : Nat) :
    (∀ l, st.latest = some l → l.num < num →
      hashAt remote st num false = ⟨zeroHash, st.hist, false⟩) ∧
    (isFuture st.latest num = false → ∀ bl, st.hist num = some bl →
      hashAt remote st num false = ⟨bl.hash, st.hist, false⟩) ∧
    (isFuture st.latest num = false → st.hist num = none →
      ∀ child, st.hist (add1 num) = some child →
      hashAt remote st num false = ⟨child.pHash, st.hist, false⟩) ∧
    (isFuture st.latest num = false → st.hist num = none →
      st.hist (add1 num) = none →
      (hashAt remote st num false).queried = true ∧
      (hashAt remote st num false).val =
        (match (fetchHeader remote (some num) st.hist).res with
          | .ok bl => bl.hash
          | .error _ => zeroHash)) := by
  refine ⟨?_, ?_, ?_, ?_⟩
  · intro l hl hlt
    have hfut : isFuture st.latest num = true := by
      simp [isFuture, hl, hlt]
    simp [hashAt, hfut]
  · intro hfut bl hbl
    simp [hashAt, hfut, hbl]
  · intro hfut hmiss child hchild
    simp [hashAt, hfut, hmiss, hchild]
  · intro hfut hmiss hchild
    have hrw : hashAt remote st num false = hashAtFetch remote st num := by
      simp [hashAt, hfut, hmiss, hchild]
    rw [hrw]
    unfold hashAtFetch
    cases hres : (fetchHeader remote (some num) st.hist).res with
    | ok bl => simp [hres]
    | error e => simp [hres]

/-- Concrete run of C8, branch "cache hit at n+1": history holds only an
entry at height 4, so HashAt(3, false) returns its parent hash 30 without
touching the remote or the history. -/
theorem hashAt_cache_semantics_witness :
    hashAt (fun _ => RemoteAnswer.transportErr)
      ⟨some ⟨9, 99, 98⟩, fun k => if k = 4 then some ⟨4, 40, 30⟩ else none⟩ 3 false =
      ⟨30, (fun k => if k = 4 then some ⟨4, 40, 30⟩ else none), false⟩ :=
  (hashAt_cache_semantics (fun _ => RemoteAnswer.transportErr)
      ⟨some ⟨9, 99, 98⟩, fun k => if k = 4 then some ⟨4, 40, 30⟩ else none⟩ 3).2.2.1
    (by decide) (by decide) ⟨4, 40, 30⟩ (by decide)

/-! ### Claim C3 -/

/-- C3 is refuted at a concrete input: the history caches a block at height
5 whose parent hash is 100, BlockAt(4, false) fetches a block at height 4
with hash 77 from the remote, the backward reconciliation finds no entry at
height 3 and stops, and the completed call leaves adjacent entries at 4 and
5 with chainHistory[5].pHash = 100 ≠ 77 = chainHistory[4].hash. -/
theorem blockAt_adjacency_counterexample :
    (blockAt (fun r => if r = some 4 then RemoteAnswer.header ⟨4, 77, 60⟩
        else RemoteAnswer.transportErr)
      ⟨some ⟨9, 99, 98⟩, fun k => if k = 5 then some ⟨5, 88, 100⟩ else none⟩
      4 false).res = some ⟨4, 77, 60⟩ ∧
    (blockAt (fun r => if r = some 4 then RemoteAnswer.header ⟨4, 77, 60⟩
        else RemoteAnswer.transportErr)
      ⟨some ⟨9, 99, 98⟩, fun k => if k = 5 then some ⟨5, 88, 100⟩ else none⟩
      4 false).hist 4 = some ⟨4, 77, 60⟩ ∧
    (blockAt (fun r => if r = some 4 then RemoteAnswer.header ⟨4, 77, 60⟩
        else RemoteAnswer.transportErr)
      ⟨some ⟨9, 99, 98⟩, fun k => if k = 5 then some ⟨5, 88, 100⟩ else none⟩
      4 false).hist 5 = some ⟨5, 88, 100⟩ ∧
    (100 : Hash) ≠ (77 : Hash) := by
  refine ⟨?_, ?_, ?_, by decide⟩ <;> rfl

/-- The block a fixed well-formed chain serves at height k: hash C k,
parent hash C (k-1), and G as the genesis parent. -/
def chainBlock (C : Nat → Hash) (G : Hash) (k : Nat) : BlockInfo :=
  ⟨k, C k, if k = 0 then G else C (k - 1)⟩

/-- A remote endpoint that always answers from one fixed well-formed chain;
latestNum is the height it reports for the "latest" query. -/
def chainRemote (C : Nat → Hash) (G : Hash) (latestNum : Nat) : RemoteSource :=
  fun r =>
    match r with
    | some k => .header ⟨k, C k, if k = 0 then G else C (k - 1)⟩
    | none => .header ⟨latestNum, C latestNum,
        if latestNum = 0 then G else C (latestNum - 1)⟩

/-- Bool check of the key invariant at one height: the entry cached at k,
if any, carries number k. -/
def histKeyOk (hist : ChainHist) (k : Nat) : Bool :=
  match hist k with
  | some bl => bl.num == k
  | none => true

/-- Bool check of the adjacency invariant at heights m and m+1:
if both entries exist, the upper one's parent hash is the lower one's hash. -/
def adjacentAt (hist : ChainHist) (m : Nat) : Bool :=
  match hist m, hist (m + 1) with
  | some a, some b => b.pHash == a.hash
  | _, _ => true

theorem adjacentAt_congr (h1 h2 : ChainHist) (m : Nat)
    (e1 : h1 m = h2 m) (e2 : h1 (m + 1) = h2 (m + 1)) :
    adjacentAt h1 m = adjacentAt h2 m := by
  simp [adjacentAt, e1, e2]

/-- Loop invariant of the reconciliation: running it from height c against a
fixed well-formed chain, on a history that already equals the chain on
[c, num], equals the pre-history elsewhere, and whose pre-history satisfies
the key and adjacency invariants below num, yields a history satisfying the
adjacency invariant at every pair of heights below num. -/
theorem reconcile_chain_adjacent (C : Nat → Hash) (G : Hash) (L : Nat)
    (pre : ChainHist) (num : Nat)
    (hnum : num < U64MAX)
    (hkey : ∀ k, k ≤ num → histKeyOk pre k = true)
    (hmaxnone : pre U64MAX = none)
    (hadj : ∀ m, m < num → adjacentAt pre m = true) :
    ∀ fuel c hist, c ≤ num → c + 1 ≤ fuel →
      (∀ k, c ≤ k → k ≤ num → hist k = some (chainBlock C G k)) →
      (∀ k, k < c → hist k = pre k) →
      (∀ k, num < k → hist k = pre k) →
      ∀ m, m < num →
        adjacentAt (reconcile (chainRemote C G L) fuel (chainBlock C G c) hist) m
          = true := by
  intro fuel
  induction fuel with
  | zero =>
    intro c hist hcnum hfuel
    omega
  | succ f ih =>
    intro c hist hcnum hfuel hcover hbelow habove m hm
    cases c with
    | zero =>
      have hsub : sub1 (chainBlock C G 0).num = U64MAX := by
        simp [sub1, chainBlock]
      have hmax : hist U64MAX = none := by
        rw [habove U64MAX (by omega)]
        exact hmaxnone
      rw [← hsub] at hmax
      simp only [reconcile, hmax]
      have e1 : hist m = some (chainBlock C G m) :=
        hcover m (Nat.zero_le m) (by omega)
      have e2 : hist (m + 1) = some (chainBlock C G (m + 1)) :=
        hcover (m + 1) (Nat.zero_le _) (by omega)
      simp [adjacentAt, e1, e2, chainBlock]
    | succ c' =>
      have hsub : sub1 (chainBlock C G (c' + 1)).num = c' := by
        simp [sub1, chainBlock]
      have hc' : hist c' = pre c' := hbelow c' (by omega)
      cases hp : pre c' with
      | none =>
        have hnone : hist (sub1 (chainBlock C G (c' + 1)).num) = none := by
          rw [hsub, hc', hp]
        simp only [reconcile, hnone]
        rcases lt_trichotomy m c' with hmc | hmc | hmc
        · have e1 : hist m = pre m := hbelow m (by omega)
          have e2 : hist (m + 1) = pre (m + 1) := hbelow (m + 1) (by omega)
          rw [adjacentAt_congr hist pre m e1 e2]
          exact hadj m hm
        · subst hmc
          simp [adjacentAt, hc', hp]
        · have e1 : hist m = some (chainBlock C G m) := hcover m (by omega) (by omega)
          have e2 : hist (m + 1) = some (chainBlock C G (m + 1)) :=
            hcover (m + 1) (by omega) (by omega)
          simp [adjacentAt, e1, e2, chainBlock]
      | some p =>
        have hpn : p.num = c' := by
          have hk := hkey c' (by omega)
          simp [histKeyOk, hp] at hk
          exact hk
        have hsome : hist (sub1 (chainBlock C G (c' + 1)).num) = some p := by
          rw [hsub, hc', hp]
        by_cases hmatch : p.hash = (chainBlock C G (c' + 1)).pHash
        · simp only [reconcile, hsome, if_pos hmatch]
          rcases lt_trichotomy m c' with hmc | hmc | hmc
          · have e1 : hist m = pre m := hbelow m (by omega)
            have e2 : hist (m + 1) = pre (m + 1) := hbelow (m + 1) (by omega)
            rw [adjacentAt_congr hist pre m e1 e2]
            exact hadj m hm
          · subst hmc
            have e1 : hist m = some p := by rw [hc', hp]
            have e2 : hist (m + 1) = some (chainBlock C G (m + 1)) :=
              hcover (m + 1) (by omega) (by omega)
            simp [adjacentAt, e1, e2, hmatch.symm]
          · have e1 : hist m = some (chainBlock C G m) :=
              hcover m (by omega) (by omega)
            have e2 : hist (m + 1) = some (chainBlock C G (m + 1)) :=
              hcover (m + 1) (by omega) (by omega)
            simp [adjacentAt, e1, e2, chainBlock]
        · have hthr : throttledGetHeader (chainRemote C G L) (some c')
              (histErase hist c') =
              ⟨.ok (chainBlock C G c'),
                histInsert (histErase hist c') (chainBlock C G c')⟩ := by
            simp [throttledGetHeader, chainRemote, chainBlock]
          simp only [reconcile, hsome, if_neg hmatch, hpn, hthr]
          refine ih c' (histInsert (histErase hist c') (chainBlock C G c'))
            (by omega) (by omega) ?_ ?_ ?_ m hm
          · intro k h1 h2
            by_cases hk : k = c'
            · subst hk
              simp [histInsert, chainBlock]
            · have hk1 : c' + 1 ≤ k := by omega
              have := hcover k (by omega) h2
              simp only [histInsert, histErase, chainBlock]
              rw [if_neg hk, if_neg hk]
              exact this
          · intro k hklt
            have hk : ¬ k = c' := by omega
            have := hbelow k (by omega)
            simp only [histInsert, histErase, chainBlock]
            rw [if_neg hk, if_neg hk]
            exact this
          · intro k hkgt
            have hk : ¬ k = c' := by omega
            have := habove k hkgt
            simp only [histInsert, histErase, chainBlock]
            rw [if_neg hk, if_neg hk]
            exact this

/-- C3 (amended): the adjacency invariant is only guaranteed below the
fetched height, and only against a remote serving a fixed well-formed
chain: after BlockAt(n, false) against such a remote, if the history obeyed
the key invariant, held no entry at the maximal uint64 height, and was
adjacency-consistent below n beforehand, then every pair of consecutive
entries at heights ≤ n satisfies chainHistory[m+1].pHash =
chainHistory[m].hash afterwards.  Pairs above the fetched height can be
left violated (see the counterexample), because the reconciliation only
walks backwards from the fetched block. -/
theorem blockAt_adjacency_below_fetched (C : Nat → Hash) (G : Hash) (L : Nat)
    (st : NodeState) (num : Nat)
    (hnum : num < U64MAX)
    (hkey : ∀ k, k ≤ num → histKeyOk st.hist k = true)
    (hmaxnone : st.hist U64MAX = none)
    (hadj : ∀ m, m < num → adjacentAt st.hist m = true) :
    ∀ m, m < num →
      adjacentAt (blockAt (chainRemote C G L) st num false).hist m = true := by
  intro m hm
  unfold blockAt
  by_cases hfut : isFuture st.latest num = true
  · simp only [hfut, if_true]
    exact hadj m hm
  · have hfut' : isFuture st.latest num = false := by
      cases h : isFuture st.latest num
      · rfl
      · exact absurd h hfut
    simp only [hfut', Bool.false_eq_true, if_false]
    cases hl : cacheLookup false st.hist num with
    | some bl =>
      simp only
      exact hadj m hm
    | none =>
      have hthr : throttledGetHeader (chainRemote C G L) (some num) st.hist =
          ⟨.ok (chainBlock C G num), histInsert st.hist (chainBlock C G num)⟩ := by
        simp [throttledGetHeader, chainRemote, chainBlock]
      have hfetch : fetchHeader (chainRemote C G L) (some num) st.hist =
          ⟨.ok (chainBlock C G num),
            reconcile (chainRemote C G L) ((chainBlock C G num).num + 2)
              (chainBlock C G num) (histInsert st.hist (chainBlock C G num))⟩ := by
        simp [fetchHeader, hthr]
      simp only [hfetch]
      refine reconcile_chain_adjacent C G L st.hist num hnum hkey hmaxnone hadj
        ((chainBlock C G num).num + 2) num
        (histInsert st.hist (chainBlock C G num))
        (le_refl num) (by simp [chainBlock]) ?_ ?_ ?_ m hm
      · intro k h1 h2
        have hk : k = num := by omega
        subst hk
        simp [histInsert, chainBlock]
      · intro k hklt
        have hk : ¬ k = num := by omega
        simp only [histInsert, chainBlock]
        rw [if_neg hk]
      · intro k hkgt
        have hk : ¬ k = num := by omega
        simp only [histInsert, chainBlock]
        rw [if_neg hk]

/-- Concrete run of the amended C3 statement: a stale cached block at height
3 conflicts with the freshly fetched chain block at 4; the reconciliation
refetches 3 and the resulting history is adjacency-consistent at (3, 4). -/
theorem blockAt_adjacency_below_fetched_witness :
    (∀ k, k ≤ 4 → histKeyOk
      (fun k => if k = 3 then some ⟨3, 500, 450⟩ else none) k = true) ∧
    (∀ m, m < 4 → adjacentAt
      (fun k => if k = 3 then some ⟨3, 500, 450⟩ else none) m = true) ∧
    adjacentAt (blockAt (chainRemote (fun k => k + 100) 7 9)
      ⟨none, fun k => if k = 3 then some ⟨3, 500, 450⟩ else none⟩
      4 false).hist 3 = true :=
  ⟨by decide, by decide,
    blockAt_adjacency_below_fetched (fun k => k + 100) 7 9
      ⟨none, fun k => if k = 3 then some ⟨3, 500, 450⟩ else none⟩ 4
      (by decide) (by decide) (by decide) (by decide) 3 (by decide)⟩

/-! ## Bad blocks (nodes/monitor.go getBadBlocks, Report.addBadBlocks)

getBadBlocks decodes each reported rlp payload with go-ethereum's block
decoder, which is external to this repository; the decode outcome is
therefore carried on the input as an oracle. -/

/-- The fields recovered from a successfully decoded bad-block payload. -/
structure DecodedBlock where
  number : Int
  parentHash : Hash
  time : Nat
  extra : List Nat
  coinbase : Nat
  root : Hash
deriving DecidableEq, Repr

/-- One element of the debug_getBadBlocks response (eth.BadBlockArgs),
together with the decode outcome of its rlp payload. -/
structure BadBlockArg where
  hash : Hash
  rlp : String
  decoded : Option DecodedBlock
deriving DecidableEq, Repr

/-- badBlockJson: the pointer fields (Number, ParentHash, Time, Coinbase,
Root) are nil until the payload decodes, hence Option. -/
structure BadBlockJson where
  clients : List String
  rlp : String
  hash : Hash
  number : Option Int
  parentHash : Option Hash
  time : Option Nat
  extra : List Nat
  coinbase : Option Nat
  root : Option Hash
deriving DecidableEq, Repr

/-- The record getBadBlocks builds for one reported bad block: clients,
hash and rlp are always set; the number and the other decoded fields only
when the rlp payload decodes; the record is appended either way. -/
def toBadBlockJson (nodeName : String) (arg : BadBlockArg) : BadBlockJson :=
  match arg.decoded with
  | some d => ⟨[nodeName], arg.rlp, arg.hash, some d.number, some d.parentHash,
      some d.time, d.extra, some d.coinbase, some d.root⟩
  | none => ⟨[nodeName], arg.rlp, arg.hash, none, none, none, [], none, none⟩

/-- getBadBlocks, nodes/monitor.go lines 367-395. -/
def getBadBlocks (nodeName : String) (args : List BadBlockArg) :
    List BadBlockJson :=
  args.map (toBadBlockJson nodeName)

/-- This record's Number is non-nil. -/
def numbered (b : BadBlockJson) : Bool := b.number.isSome

/-- The descending sort key of BadBlockList; only meaningful on numbered
records (Go dereferences the nil pointer otherwise). -/
def bbKey (b : BadBlockJson) : Int := b.number.getD 0

/-- (*Report).addBadBlocks: append the map's records, sort with
sort.Reverse over BadBlockList.Less (i.e. descending by Number), and keep
at most 20.  The Go comparator calls Number.Cmp, which dereferences a nil
Number; any comparison sort compares every element at least once when the
slice holds two or more elements, so the Go call panics exactly when the
combined list has at least two records and one of them has a nil Number —
modelled by none.  Go's unstable sort yields an unspecified sorted
permutation; insertion sort stands in for it. -/
def addBadBlocks (cur : List BadBlockJson) (m : List BadBlockJson) :
    Option (List BadBlockJson) :=
  let all := cur ++ m
  if all.length ≤ 1 ∨ all.all numbered then
    some ((List.insertionSort (fun a b => bbKey b ≤ bbKey a) all).take 20)
  else none

/-! ### Claim C7 -/

/-- C7 is refuted at a concrete input: a bad-block map holding one record
with a nil Number next to a numbered record makes the descending sort
dereference nil — there is no resulting list at all, so it is neither
sorted nor capped. -/
theorem addBadBlocks_nil_number_crash :
    addBadBlocks []
      [⟨["geth"], "0xbad", 11, none, none, none, [], none, none⟩,
       ⟨["geth"], "0xok", 12, some 7, some 1, some 0, [], some 2, some 3⟩]
      = none := by
  decide

/-- C7 (amended): for every bad-block map all of whose records carry a
non-nil Number, addBadBlocks yields a list sorted in descending order of
Number with at most 20 entries; when the combined list has two or more
records and one of them has a nil Number, the sort dereferences nil and no
result exists. -/
theorem addBadBlocks_sorted_capped (cur m : List BadBlockJson)
    (h : (cur ++ m).all numbered = true) :
    ∃ l, addBadBlocks cur m = some l ∧
      List.Sorted (fun a b => bbKey b ≤ bbKey a) l ∧ l.length ≤ 20 := by
  refine ⟨(List.insertionSort (fun a b => bbKey b ≤ bbKey a) (cur ++ m)).take 20,
    ?_, ?_, ?_⟩
  · unfold addBadBlocks
    rw [if_pos (Or.inr h)]
  · haveI : IsTotal BadBlockJson (fun a b => bbKey b ≤ bbKey a) :=
      ⟨fun a b => le_total (bbKey b) (bbKey a)⟩
    haveI : IsTrans BadBlockJson (fun a b => bbKey b ≤ bbKey a) :=
      ⟨fun _ _ _ hab hbc => le_trans hbc hab⟩
    have hs := List.sorted_insertionSort (fun a b => bbKey b ≤ bbKey a) (cur ++ m)
    exact List.Pairwise.sublist (List.take_sublist 20 _) hs
  · rw [List.length_take]
    exact Nat.min_le_left _ _

/-- Concrete run of the amended C7 statement: two numbered records. -/
theorem addBadBlocks_sorted_capped_witness :
    (([] ++ [(⟨["a"], "0x01", 1, some 5, none, none, [], none, none⟩ : BadBlockJson),
       ⟨["b"], "0x02", 2, some 9, none, none, [], none, none⟩]).all numbered
      = true) ∧
    ∃ l, addBadBlocks []
      [⟨["a"], "0x01", 1, some 5, none, none, [], none, none⟩,
       ⟨["b"], "0x02", 2, some 9, none, none, [], none, none⟩] = some l ∧
      List.Sorted (fun a b => bbKey b ≤ bbKey a) l ∧ l.length ≤ 20 :=
  ⟨by decide, addBadBlocks_sorted_capped _ _ (by decide)⟩

/-! ### Claim C9 -/

/-- C9 is refuted at a concrete input: a bad block whose rlp payload fails
to decode is still appended by getBadBlocks but with a nil Number, and
merging it with any numbered record makes addBadBlocks' descending sort
dereference the nil Number. -/
theorem getBadBlocks_nil_number_counterexample :
    (getBadBlocks "geth" [⟨11, "0xbad", none⟩]).head? =
      some ⟨["geth"], "0xbad", 11, none, none, none, [], none, none⟩ ∧
    addBadBlocks [] (getBadBlocks "geth"
      [⟨11, "0xbad", none⟩, ⟨12, "0xok", some ⟨7, 1, 0, [], 2, 3⟩⟩]) = none := by
  decide

/-- C9 (amended): every record getBadBlocks produces for a payload that
decodes carries a non-nil Number, and when every reported payload decodes
the whole batch is numbered, so addBadBlocks' descending sort is safe on
it.  A payload that fails to decode is still appended, with a nil Number
(see the counterexample). -/
theorem getBadBlocks_number_of_decodable (nodeName : String)
    (args : List BadBlockArg) (h : ∀ a ∈ args, a.decoded ≠ none) :
    (∀ r ∈ getBadBlocks nodeName args, r.number ≠ none) ∧
    ∃ l, addBadBlocks [] (getBadBlocks nodeName args) = some l := by
  have hnum : ∀ r ∈ getBadBlocks nodeName args, r.number ≠ none := by
    intro r hr
    unfold getBadBlocks at hr
    rcases List.mem_map.mp hr with ⟨a, ha, heq⟩
    subst heq
    cases hd : a.decoded with
    | none => exact absurd hd (h a ha)
    | some d => simp [toBadBlockJson, hd]
  refine ⟨hnum, ?_⟩
  have hall : ([] ++ getBadBlocks nodeName args).all numbered = true := by
    rw [List.nil_append]
    rw [List.all_eq_true]
    intro r hr
    have := hnum r hr
    simp [numbered, Option.isSome_iff_ne_none, this]
  rcases addBadBlocks_sorted_capped [] (getBadBlocks nodeName args) hall with
    ⟨l, hl, _, _⟩
  exact ⟨l, hl⟩

/-- Concrete run of the amended C9 statement: one decodable payload. -/
theorem getBadBlocks_number_of_decodable_witness :
    (∀ a ∈ [(⟨12, "0xok", some ⟨7, 1, 0, [], 2, 3⟩⟩ : BadBlockArg)],
      a.decoded ≠ none) ∧
    ∀ r ∈ getBadBlocks "geth" [⟨12, "0xok", some ⟨7, 1, 0, [], 2, 3⟩⟩],
      r.number ≠ none :=
  ⟨by decide,
    (getBadBlocks_number_of_decodable "geth" _ (by decide)).1⟩

/-! ### Claim C10 -/

/-- (*RemoteNode).BadBlocks and BadBlockCount, nodes/reporting.go lines
645-661: on an RPC error return an empty list (a non-nil empty slice in Go)
and leave badBlockCount untouched; on success cache the length as
badBlockCount and return the list.  The pair is (returned list, new
badBlockCount). -/
def badBlocksCall (res : Except Unit (List BadBlockArg))
    (badBlockCount : Nat) : List BadBlockArg × Nat :=
  match res with
  | .error _ => ([], badBlockCount)
  | .ok args => (args, args.length)

/-- C10: if debug_getBadBlocks fails, BadBlocks() returns the empty list
and badBlockCount keeps its previous value; on success badBlockCount
becomes the length of the returned list. -/
theorem badBlocks_error_empty_count_unchanged
    (res : Except Unit (List BadBlockArg)) (count : Nat) :
    (∀ e, res = .error e → badBlocksCall res count = ([], count)) ∧
    (∀ args, res = .ok args → badBlocksCall res count = (args, args.length)) := by
  constructor
  · intro e he
    subst he
    rfl
  · intro args ha
    subst ha
    rfl

/-- Concrete runs of C10: a failing call keeps badBlockCount = 5 and
returns the empty list; a successful call with one bad block sets the
count to 1. -/
theorem badBlocks_error_empty_count_unchanged_witness :
    badBlocksCall (.error ()) 5 = ([], 5) ∧
    badBlocksCall (.ok [⟨11, "0xbad", none⟩]) 5 = ([⟨11, "0xbad", none⟩], 1) :=
  ⟨(badBlocks_error_empty_count_unchanged (.error ()) 5).1 () rfl,
    (badBlocks_error_empty_count_unchanged (.ok [⟨11, "0xbad", none⟩]) 5).2 _ rfl⟩

/-! ## Monitor round (nodes/monitor.go doChecks / findSplits)

For the round-level claim each node is abstracted to an opaque name id
(Go compares name strings; only the total order matters), whether its
UpdateLatest succeeded this round, its head number, and its pure hash
view.  BlockAt(HeadNum(), false) on a responding node returns the cached
head block, whose number equals the head number by the key invariant, so
the head-collection loop inserts exactly the head numbers. -/

/-- One monitored node as doChecks sees it after the parallel head
refresh. -/
structure MNode where
  name : Nat
  ok : Bool
  headNum : Nat
  hashAt : Nat → Hash

/-- heads[x] = true: set insertion into the interesting-heights set. -/
def insertHeight (x : Nat) (s : List Nat) : List Nat :=
  if x ∈ s then s else x :: s

/-- The head-collection loop of findSplits: every active node's head
number enters the heads set. -/
def collectHeads (active : List MNode) : List Nat :=
  active.foldl (fun s n => insertHeight n.headNum s) []

/-- The distinct-head compression of findSplits: keep the first node seen
for each distinct head hash. -/
def distinctReps (active : List MNode) : List MNode :=
  (active.foldl
    (fun acc n =>
      if n.hashAt n.headNum ∈ acc.2 then acc
      else (acc.1 ++ [n], n.hashAt n.headNum :: acc.2))
    (([], []) : List MNode × List Hash)).1

/-- The unordered pairs (i < j) that forPairs feeds to the workers. -/
def allPairs : List MNode → List (MNode × MNode)
  | [] => []
  | x :: xs => xs.map (fun y => (x, y)) ++ allPairs xs

/-- The per-pair body of findSplits: at highest = min of the heads, if the
hashes agree there is no split; otherwise findSplit locates one. -/
def pairSplit (cache : List Nat) (a b : MNode) : Option Nat :=
  let highest := min a.headNum b.headNum
  if a.hashAt highest == b.hashAt highest then none
  else some (findSplit cache highest a.hashAt b.hashAt)

/-- The heads-set mutation for one pair: insert the split height, and its
predecessor when the split is positive. -/
def splitStep (cache : List Nat) (s : List Nat) (p : MNode × MNode) : List Nat :=
  match pairSplit cache p.1 p.2 with
  | none => s
  | some sp =>
    let s1 := insertHeight sp s
    if 0 < sp then insertHeight (sp - 1) s1 else s1

/-- findSplits: the heads set after the pair scan.  The Go workers mutate
the shared set under one mutex; set insertion commutes, so the resulting
set equals this sequential fold. -/
def findSplitsHeights (cache : List Nat) (active : List MNode) : List Nat :=
  (allPairs (distinctReps active)).foldl (splitStep cache) (collectHeads active)

/-- Report.Numbers of a round: active nodes are the ok ones sorted by
name; the heads set is sorted descending
(sort.Sort(sort.Reverse(sort.IntSlice(headList)))). -/
def doChecksNumbers (cache : List Nat) (nodes : List MNode) : List Nat :=
  let active := List.insertionSort (fun x y => x.name ≤ y.name)
    (nodes.filter (fun n => n.ok))
  List.insertionSort (fun x y => y ≤ x) (findSplitsHeights cache active)

theorem insertHeight_nodup (x : Nat) (s : List Nat) (h : s.Nodup) :
    (insertHeight x s).Nodup := by
  unfold insertHeight
  by_cases hx : x ∈ s
  · rw [if_pos hx]
    exact h
  · rw [if_neg hx]
    exact List.nodup_cons.mpr ⟨hx, h⟩

theorem mem_insertHeight (x y : Nat) (s : List Nat) :
    y ∈ insertHeight x s ↔ y = x ∨ y ∈ s := by
  unfold insertHeight
  by_cases hx : x ∈ s
  · rw [if_pos hx]
    constructor
    · exact Or.inr
    · rintro (rfl | h)
      · exact hx
      · exact h
  · rw [if_neg hx]
    exact List.mem_cons

theorem collectHeads_go (l : List MNode) :
    ∀ s : List Nat, s.Nodup →
      (l.foldl (fun s n => insertHeight n.headNum s) s).Nodup ∧
      (∀ y ∈ s, y ∈ l.foldl (fun s n => insertHeight n.headNum s) s) ∧
      (∀ n ∈ l, n.headNum ∈ l.foldl (fun s n => insertHeight n.headNum s) s) := by
  induction l with
  | nil =>
    intro s hs
    exact ⟨hs, fun y hy => hy, fun n hn => absurd hn (List.not_mem_nil n)⟩
  | cons a l ih =>
    intro s hs
    simp only [List.foldl_cons]
    have h1 := ih (insertHeight a.headNum s) (insertHeight_nodup _ _ hs)
    refine ⟨h1.1, ?_, ?_⟩
    · intro y hy
      exact h1.2.1 y ((mem_insertHeight _ _ _).mpr (Or.inr hy))
    · intro n hn
      rcases List.mem_cons.mp hn with rfl | hn'
      · exact h1.2.1 _ ((mem_insertHeight _ _ _).mpr (Or.inl rfl))
      · exact h1.2.2 n hn'

theorem foldSplits_aux (cache : List Nat) (ps : List (MNode × MNode)) :
    ∀ s : List Nat, s.Nodup →
      (ps.foldl (splitStep cache) s).Nodup ∧
      ∀ y ∈ s, y ∈ ps.foldl (splitStep cache) s := by
  induction ps with
  | nil =>
    intro s hs
    exact ⟨hs, fun y hy => hy⟩
  | cons p ps ih =>
    intro s hs
    simp only [List.foldl_cons]
    have hstep : (splitStep cache s p).Nodup ∧ ∀ y ∈ s, y ∈ splitStep cache s p := by
      unfold splitStep
      cases pairSplit cache p.1 p.2 with
      | none => exact ⟨hs, fun y hy => hy⟩
      | some sp =>
        by_cases hsp : 0 < sp
        · simp only [if_pos hsp]
          refine ⟨insertHeight_nodup _ _ (insertHeight_nodup _ _ hs), ?_⟩
          intro y hy
          exact (mem_insertHeight _ _ _).mpr
            (Or.inr ((mem_insertHeight _ _ _).mpr (Or.inr hy)))
        · simp only [if_neg hsp]
          exact ⟨insertHeight_nodup _ _ hs,
            fun y hy => (mem_insertHeight _ _ _).mpr (Or.inr hy)⟩
    have h1 := ih (splitStep cache s p) hstep.1
    exact ⟨h1.1, fun y hy => h1.2 y (hstep.2 y hy)⟩

theorem sorted_desc_strict (l : List Nat) (h : l.Nodup) :
    List.Sorted (fun x y => y < x) (List.insertionSort (fun x y => y ≤ x) l) := by
  haveI : IsTotal Nat (fun x y => y ≤ x) := ⟨fun a b => le_total b a⟩
  haveI : IsTrans Nat (fun x y => y ≤ x) := ⟨fun _ _ _ hab hbc => le_trans hbc hab⟩
  have hs := List.sorted_insertionSort (fun x y : Nat => y ≤ x) l
  have hn : (List.insertionSort (fun x y : Nat => y ≤ x) l).Nodup :=
    (List.perm_insertionSort (fun x y : Nat => y ≤ x) l).symm.nodup h
  have hp := List.Pairwise.and hs hn
  exact hp.imp (fun hxy => lt_of_le_of_ne hxy.1 (Ne.symm hxy.2))

/-! ### Claim C5 -/

/-- C5: after a doChecks round, Report.Numbers is strictly descending and
contains the head number of every node whose UpdateLatest succeeded (every
active node). -/
theorem doChecks_numbers_descending_complete (cache : List Nat)
    (nodes : List MNode) :
    List.Sorted (fun x y => y < x) (doChecksNumbers cache nodes) ∧
    ∀ n ∈ nodes, n.ok = true → n.headNum ∈ doChecksNumbers cache nodes := by
  have hbase := collectHeads_go
    (List.insertionSort (fun x y => x.name ≤ y.name)
      (nodes.filter (fun n => n.ok))) [] List.nodup_nil
  have hfold := foldSplits_aux cache
    (allPairs (distinctReps (List.insertionSort (fun x y => x.name ≤ y.name)
      (nodes.filter (fun n => n.ok)))))
    (collectHeads (List.insertionSort (fun x y => x.name ≤ y.name)
      (nodes.filter (fun n => n.ok)))) hbase.1
  constructor
  · exact sorted_desc_strict _ hfold.1
  · intro n hn hok
    have hmemf : n ∈ nodes.filter (fun n => n.ok) :=
      List.mem_filter.mpr ⟨hn, hok⟩
    have hmems : n ∈ List.insertionSort (fun x y => x.name ≤ y.name)
        (nodes.filter (fun n => n.ok)) :=
      (List.perm_insertionSort _ _).mem_iff.mpr hmemf
    have hhead := hbase.2.2 n hmems
    have hin := hfold.2 n.headNum hhead
    exact (List.perm_insertionSort (fun x y : Nat => y ≤ x) _).mem_iff.mpr hin

/-- Concrete run of C5: one active node at head 5. -/
theorem doChecks_numbers_descending_complete_witness :
    List.Sorted (fun x y => y < x)
      (doChecksNumbers [] [⟨1, true, 5, fun _ => 9⟩]) ∧
    (5 : Nat) ∈ doChecksNumbers [] [⟨1, true, 5, fun _ => 9⟩] :=
  ⟨(doChecks_numbers_descending_complete [] [⟨1, true, 5, fun _ => 9⟩]).1,
    (doChecks_numbers_descending_complete [] [⟨1, true, 5, fun _ => 9⟩]).2
      ⟨1, true, 5, fun _ => 9⟩ (List.mem_singleton.mpr rfl) rfl⟩

/-! ## Vulnerability catalogue (nodes/monitor.go checkNode)

Time is abstracted to seconds.  The package state is the cached catalogue
(nil before the first successful fetch) and the lastCheckUpdate stamp;
lastCheckUpdate is never assigned anywhere in the package, so in the
running program it always holds the zero time. -/

/-- The process-wide vulnerability-check state. -/
structure VulnCheckState where
  checkCache : Option (List String)
  lastCheckUpdate : Nat

/-- The refetch condition exactly as checkNode writes it:
checkCache != nil || time.Since(lastCheckUpdate) > 10*time.Minute. -/
def checkNodeFetches (st : VulnCheckState) (now : Nat) : Bool :=
  st.checkCache.isSome || decide (600 < now - st.lastCheckUpdate)

/-- The refetch condition as the specification and the claim state it:
fetch on the first call (no catalogue cached yet) or when more than 10
minutes have elapsed since the last refresh. -/
def checkNodeFetchesSpec (st : VulnCheckState) (now : Nat) : Bool :=
  st.checkCache.isNone || decide (600 < now - st.lastCheckUpdate)

/-! ### Claim C6 -/

/-- C6: the code contradicts the claim.  With a catalogue cached and only
60 seconds elapsed since the last refresh, the source condition
checkCache != nil || elapsed > 10min is true — once a catalogue is cached,
every call re-fetches — while the claimed condition is false; conversely
with no catalogue cached and 60 seconds elapsed the source condition is
false while the claimed one is true.  The cache disjunct is inverted. -/
theorem checkNode_refetch_condition_inverted :
    checkNodeFetches ⟨some ["GETH-2020-01"], 1000⟩ 1060 = true ∧
    checkNodeFetchesSpec ⟨some ["GETH-2020-01"], 1000⟩ 1060 = false ∧
    checkNodeFetches ⟨none, 1000⟩ 1060 = false ∧
    checkNodeFetchesSpec ⟨none, 1000⟩ 1060 = true := by
  decide
